import Mathlib

/-!
Shallow embedding of the hnfen rules kernel (an 11×11 Tafl-family game engine
written in Rust: `src/lib.rs`, `src/types.rs`, `src/moves.rs`) together with
theorems settling the specification claims.

Modelling conventions:
* Machine integers (`usize`, `u8`, `isize`) become `Nat`/`Int`.  Signed
  intermediate coordinates (`isize` in the source) are `Int`; conversions
  `as usize` on values already checked non-negative become `Int.toNat`.
* Fallible code returning Rust `Option` becomes `DecodeResult`, which also
  makes the panicking control paths of the source explicit:
  `DecodeResult.ok` mirrors `Some`, `DecodeResult.fail` mirrors `None`, and
  `DecodeResult.panic` mirrors a process abort (`unwrap` failure or an
  out-of-bounds slice index).
* Rust `&str` values are processed as `List Char`; `String` appears only at
  the outermost decode/encode boundary.
* Board cells are addressed as `ranks[y].fields[x]`.  Array reads/writes in
  the source index fixed-size arrays; here `getIdx` returns `none` and
  `setIdx` is the identity out of range, and every call site that the source
  reaches only after an `in_board` check stays in range, so the defaults are
  never observable.  The two places where the source *can* index out of
  bounds (the initial reads/writes of `Board::apply` driven by caller
  supplied positions, and the rank decoder's cursor write) are modelled
  explicitly with range checks that produce `none`/`DecodeResult.panic`.
* `Position.to_indices` computes with `Nat` subtraction (which truncates at
  zero) where the source computes with `u8`/`usize` subtraction (which
  panics in debug builds when it would underflow, i.e. for `rank > 11` or a
  column below `'a'`).  All theorems about positions either restrict to the
  in-range region, where the two agree, or concern positions whose
  subtraction does not underflow.
-/

namespace Hnfen

/-- Result of a fallible Rust operation, with panics made explicit:
`ok` mirrors `Some`, `fail` mirrors `None`, `panic` mirrors a process abort. -/
inductive DecodeResult (α : Type) where
  | ok : α → DecodeResult α
  | fail : DecodeResult α
  | panic : DecodeResult α
deriving DecidableEq, Repr

/-- The two sides; `black` is the attacker (moves first), `white` the defender.
Mirrors `enum Player` in types.rs. -/
inductive Player where
  | black
  | white
deriving DecidableEq, Repr

/-- Mirrors `Player::opposite` (types.rs). -/
def Player.opposite : Player → Player
  | Player.black => Player.white
  | Player.white => Player.black

/-- A piece: a normal piece of one side, or the king.
Mirrors `enum Piece` in types.rs. -/
inductive Piece where
  | normal : Player → Piece
  | king
deriving DecidableEq, Repr

/-- Mirrors `Piece::color` (types.rs): the king counts as white (defender). -/
def Piece.color : Piece → Player
  | Piece.normal c => c
  | Piece.king => Player.white

/-- Mirrors `struct Position { column: char, rank: u8 }` (moves.rs). -/
structure Position where
  column : Char
  rank : Nat
deriving DecidableEq, Repr

/-- Mirrors `Position::from_indices` (moves.rs): column `b'a' + x`, rank `11 - y`. -/
def Position.from_indices (x y : Nat) : Position :=
  { column := Char.ofNat (97 + x), rank := 11 - y }

/-- Mirrors `Position::to_indices` (moves.rs): `(column - b'a', 11 - rank)`.
Nat subtraction truncates where the source's `u8` subtraction would panic
(debug) on underflow; see the module comment. -/
def Position.to_indices (p : Position) : Nat × Nat :=
  (p.column.toNat - 97, 11 - p.rank)

/-- Mirrors `struct Move { from: Position, to: Position }` (moves.rs);
`from` is a Lean keyword, so the fields are `fromPos`/`toPos`. -/
structure Move where
  fromPos : Position
  toPos : Position
deriving DecidableEq, Repr

/-- Mirrors `enum Direction` (moves.rs). -/
inductive Direction where
  | up
  | down
  | left
  | right
deriving DecidableEq, Repr, Fintype

/-- Mirrors `Direction::vector` (moves.rs): the (x, y) difference.  Note the
source's `Up`/`Down` move along x and `Left`/`Right` along y. -/
def Direction.vector (d : Direction) (length : Nat) : Int × Int :=
  match d with
  | Direction.up => (-(length : Int), 0)
  | Direction.down => ((length : Int), 0)
  | Direction.left => (0, -(length : Int))
  | Direction.right => (0, (length : Int))

/-- Mirrors `Direction::card` (moves.rs). -/
def Direction.card : List Direction :=
  [Direction.up, Direction.down, Direction.left, Direction.right]

/-- Mirrors `is_corner` (moves.rs). -/
def is_corner (x y : Nat) : Bool :=
  (x = 0 && y = 0) || (x = 0 && y = 10) || (x = 10 && y = 0) || (x = 10 && y = 10)

/-- Mirrors `is_castle` (moves.rs): despite the name it is true on the four
corners as well as the centre cell (5,5) — the "special" cells. -/
def is_castle (x y : Nat) : Bool :=
  is_corner x y || (x = 5 && y = 5)

/-- Mirrors `in_board` (moves.rs). -/
def in_board (x y : Int) : Bool :=
  0 ≤ x && x < 11 && 0 ≤ y && y < 11

/-- Mirrors `struct Rank` (types.rs): one row of 11 cells.  The fixed array
`[Option<Piece>; 11]` becomes a list; well-formedness (`fields.length = 11`)
is carried as a hypothesis where a theorem needs it. -/
structure Rank where
  fields : List (Option Piece)
deriving DecidableEq, Repr

/-- Mirrors `struct Board` (types.rs). -/
structure Board where
  ranks : List Rank
  next : Player
deriving DecidableEq, Repr

/-- Cell read `ranks[y].fields[x]`; out of range gives `none` (the source
panics there, but every modelled call site is range-checked first). -/
def Board.getIdx (b : Board) (x y : Nat) : Option Piece :=
  b.ranks[y]?.bind fun r => r.fields[x]?.bind fun cell => cell

/-- Cell write `ranks[y].fields[x] = v`; out of range is the identity (the
source panics there, but every modelled call site is range-checked first). -/
def Board.setIdx (b : Board) (x y : Nat) (v : Option Piece) : Board :=
  match b.ranks[y]? with
  | some r => { b with ranks := b.ranks.set y { fields := r.fields.set x v } }
  | none => b

/-- Mirrors `Board::get` (types.rs). -/
def Board.get (b : Board) (pos : Position) : Option Piece :=
  let (x, y) := pos.to_indices
  b.getIdx x y

/-- Mirrors `Board::set` (types.rs). -/
def Board.set (b : Board) (pos : Position) (piece : Option Piece) : Board :=
  let (x, y) := pos.to_indices
  b.setIdx x y piece

/-- Mirrors `Board::pieces` (types.rs): row-major positions of the normal
pieces of `color`, with the king included when `color` is white. -/
def Board.pieces (b : Board) (color : Player) : List Position :=
  (b.ranks.enum.flatMap fun (y, rank) =>
    rank.fields.enum.filterMap fun (x, piece) =>
      match piece with
      | some (Piece.normal c) => if c = color then some (Position.from_indices x y) else none
      | some Piece.king => if color = Player.white then some (Position.from_indices x y) else none
      | none => none)

/-- Mirrors `Board::king` (types.rs): the first (row-major) king cell. -/
def Board.king (b : Board) : Option Position :=
  (b.ranks.enum.flatMap fun (y, rank) =>
    rank.fields.enum.filterMap fun (x, piece) =>
      match piece with
      | some Piece.king => some (Position.from_indices x y)
      | _ => none).head?

/-- Mirrors `Board::king_escaped` (types.rs). -/
def Board.king_escaped (b : Board) : Bool :=
  match b.king with
  | some pos =>
    let (x, y) := pos.to_indices
    is_corner x y
  | none => false

/-- Mirrors `Board::is_king_capture` (types.rs): a king at `pos` would be
captured iff in every cardinal direction the neighbouring cell is on the
board and is a special cell or holds a black piece.  The source's early
`return false` loop is the short-circuiting `List.all`. -/
def Board.is_king_capture (b : Board) (pos : Position) : Bool :=
  let (x, y) := pos.to_indices
  Direction.card.all fun dir =>
    let dirDiff := dir.vector 1
    let cpx : Int := (x : Int) + dirDiff.1
    let cpy : Int := (y : Int) + dirDiff.2
    if in_board cpx cpy then
      let cx := cpx.toNat
      let cy := cpy.toNat
      if is_castle cx cy then
        true
      else
        match b.getIdx cx cy with
        | some p => p.color == Player.black
        | none => false
    else
      false

/-- The shared tail of one capture-scan direction of `Board::apply`
(types.rs): the code after `other_is_king` has been determined — check the
cell beyond the adjacent piece and remove the adjacent piece on a capture. -/
def captureStep (b : Board) (moveColor : Player) (ox oy : Nat) (dx dy : Int)
    (otherIsKing : Bool) : Board :=
  let opx : Int := (ox : Int) + dx
  let opy : Int := (oy : Int) + dy
  if in_board opx opy then
    if otherIsKing then
      if b.is_king_capture (Position.from_indices ox oy) then
        b.set (Position.from_indices ox oy) none
      else
        b
    else
      match b.getIdx opx.toNat opy.toNat with
      | some p => if p.color = moveColor then b.set (Position.from_indices ox oy) none else b
      | none => b
  else
    b

/-- One direction of the capture scan of `Board::apply` (types.rs, the body
of the `for dir in Direction::card()` loop): look at the cell adjacent to
`(x, y)`; on an opposing normal piece, capture it iff the cell beyond holds a
piece of `moveColor`; on the king (attacker moving), capture iff
`is_king_capture`. -/
def captureDir (b : Board) (moveColor : Player) (x y : Nat) (dir : Direction) : Board :=
  let dirDiff := dir.vector 1
  let cpx : Int := (x : Int) + dirDiff.1
  let cpy : Int := (y : Int) + dirDiff.2
  if in_board cpx cpy then
    let ox := cpx.toNat
    let oy := cpy.toNat
    match b.getIdx ox oy with
    | some (Piece.normal c) =>
      if c ≠ moveColor then captureStep b moveColor ox oy dirDiff.1 dirDiff.2 false else b
    | some Piece.king =>
      if moveColor = Player.black then captureStep b moveColor ox oy dirDiff.1 dirDiff.2 true
      else b
    | none => b
  else
    b

/-- Mirrors `Board::apply` (types.rs).  `none` marks the panics of the
source's unchecked array indexing on out-of-range positions; an empty `from`
cell is the source's silent no-op early return. -/
def Board.apply (b : Board) (mov : Move) : Option Board :=
  let (x, y) := mov.fromPos.to_indices
  if x < 11 ∧ y < 11 then
    match b.getIdx x y with
    | none => some b
    | some piece =>
      let moveColor := piece.color
      let b1 := b.setIdx x y none
      let (tx, ty) := mov.toPos.to_indices
      if tx < 11 ∧ ty < 11 then
        let b2 := b1.setIdx tx ty (some piece)
        let b3 := Direction.card.foldl (fun bb dir => captureDir bb moveColor tx ty dir) b2
        some { b3 with next := moveColor.opposite }
      else
        none
  else
    none

/-- The inner sliding scan of `possible_moves` (moves.rs): from the piece at
`(cx, cy)` step outward in direction `dir`; `len` is the source's `length`
loop variable and `fuel` the remaining iterations of `1..=10`.  Stops at the
board edge, at a corner (non-king), at any occupied cell; skips but passes
over the centre castle (non-king). -/
def scanFrom (b : Board) (isKing : Bool) (fromPos : Position) (cx cy : Int)
    (dir : Direction) : Nat → Nat → List Move
  | 0, _ => []
  | fuel + 1, len =>
    let diff := dir.vector len
    let nx := cx + diff.1
    let ny := cy + diff.2
    if in_board nx ny then
      let nxn := nx.toNat
      let nyn := ny.toNat
      if !isKing && is_corner nxn nyn then
        []
      else if !isKing && (nxn == 5 && nyn == 5) then
        scanFrom b isKing fromPos cx cy dir fuel (len + 1)
      else
        match b.getIdx nxn nyn with
        | some _ => []
        | none =>
          { fromPos := fromPos, toPos := Position.from_indices nxn nyn } ::
            scanFrom b isKing fromPos cx cy dir fuel (len + 1)
    else
      []

/-- Mirrors `possible_moves` (moves.rs): all sliding moves of the side to
move, pieces row-major, directions Up, Down, Left, Right, increasing length. -/
def possible_moves (board : Board) : List Move :=
  (board.pieces board.next).flatMap fun ownLocation =>
    let (curr_x, curr_y) := ownLocation.to_indices
    let isKing := board.get ownLocation == some Piece.king
    Direction.card.flatMap fun dir =>
      scanFrom board isKing ownLocation (curr_x : Int) (curr_y : Int) dir 10 1

/-! ### Notation codec (the `Hnfen` trait implementations of types.rs/moves.rs) -/

/-- Single-character occupant token, mirrors `Piece::as_hnfen` (types.rs):
`"a"` black, `"h"` white, `"K"` king. -/
def pieceChar : Piece → Char
  | Piece.normal Player.black => 'a'
  | Piece.normal Player.white => 'h'
  | Piece.king => 'K'

/-- Mirrors `Piece::from_hnfen` (types.rs) on the single character the rank
decoder feeds it. -/
def Piece.from_hnfenChar (c : Char) : Option Piece :=
  if c = 'a' then some (Piece.normal Player.black)
  else if c = 'h' then some (Piece.normal Player.white)
  else if c = 'K' then some Piece.king
  else none

/-- Mirrors `Player::as_hnfen` (types.rs). -/
def playerChar : Player → Char
  | Player.black => 'a'
  | Player.white => 'h'

/-- Mirrors `Player::from_hnfen` (types.rs): only the exact one-character
tokens `"a"` and `"h"` decode. -/
def Player.from_hnfenChars (cs : List Char) : Option Player :=
  if cs = ['a'] then some Player.black
  else if cs = ['h'] then some Player.white
  else none

/-- Character emitter of `Rank::as_hnfen` (types.rs): runs of empty cells
are flushed as their decimal count (`format!("{}", empty_prec)`, here
`Nat.toDigits 10`), occupied cells as their occupant token. -/
def encChars : List (Option Piece) → Nat → List Char
  | [], ep => if ep > 0 then Nat.toDigits 10 ep else []
  | some p :: rest, ep =>
    (if ep > 0 then Nat.toDigits 10 ep else []) ++ pieceChar p :: encChars rest 0
  | none :: rest, ep => encChars rest (ep + 1)

/-- Mirrors `Rank::as_hnfen` (types.rs). -/
def Rank.as_hnfen (r : Rank) : String :=
  ⟨encChars r.fields 0⟩

/-- The lexer group of `Rank::from_hnfen` (types.rs), `enum C`. -/
inductive CGroup where
  | number : Nat → CGroup
  | character : Piece → CGroup
deriving DecidableEq, Repr

/-- The lexing loop of `Rank::from_hnfen` (types.rs), with the accumulator
reversed (head = the source's mutable `groups.last_mut()`).  A digit merges
into a trailing number group (`c * 10 + digit`); an occupant character
pushes a group or fails the decode.  The source tests `char::is_numeric`
and then `to_digit(10).unwrap()`; this is modelled as the ASCII digit test
(non-ASCII numerals are out of scope of every claim). -/
def lexRun : List Char → List CGroup → Option (List CGroup)
  | [], acc => some acc
  | c :: rest, acc =>
    if c.isDigit then
      match acc with
      | CGroup.number n :: tail => lexRun rest (CGroup.number (n * 10 + (c.toNat - 48)) :: tail)
      | _ => lexRun rest (CGroup.number (c.toNat - 48) :: acc)
    else
      match Piece.from_hnfenChar c with
      | some p => lexRun rest (CGroup.character p :: acc)
      | none => none

/-- The placement loop of `Rank::from_hnfen` (types.rs): numbers advance the
cursor, characters are written at it.  The source's unchecked write
`rank.fields[c_index] = Some(p)` panics for a cursor past cell 10, modelled
as `DecodeResult.panic`; after the loop a cursor ≠ 11 is a failure. -/
def placeGroups : List CGroup → List (Option Piece) → Nat → DecodeResult Rank
  | [], f, cIndex => if cIndex = 11 then DecodeResult.ok { fields := f } else DecodeResult.fail
  | CGroup.number k :: rest, f, cIndex => placeGroups rest f (cIndex + k)
  | CGroup.character p :: rest, f, cIndex =>
    if cIndex < 11 then placeGroups rest (f.set cIndex (some p)) (cIndex + 1)
    else DecodeResult.panic

/-- Proof infrastructure: the group list the rank encoder conceptually
emits — a number group per maximal empty run (`ep` counts a pending run),
a character group per piece. -/
def groupsOf : List (Option Piece) → Nat → List CGroup
  | [], ep => if ep > 0 then [CGroup.number ep] else []
  | some p :: rest, ep =>
    (if ep > 0 then [CGroup.number ep] else []) ++ CGroup.character p :: groupsOf rest 0
  | none :: rest, ep => groupsOf rest (ep + 1)

/-- Proof infrastructure: the lexer accumulator does not start with a number
group (so a following digit starts a fresh group). -/
def headNotNum : List CGroup → Prop
  | CGroup.number _ :: _ => False
  | _ => True

/-- Proof infrastructure: the effect of the placement loop on the cell
array — pieces of `l` overwrite from index `i` on, empty cells skip. -/
def writeSparse : List (Option Piece) → Nat → List (Option Piece) → List (Option Piece)
  | f, _, [] => f
  | f, i, none :: rest => writeSparse f (i + 1) rest
  | f, i, some p :: rest => writeSparse (f.set i (some p)) (i + 1) rest

/-- Mirrors `Rank::from_hnfen` (types.rs) on a character list. -/
def rankDecode (cs : List Char) : DecodeResult Rank :=
  match lexRun cs [] with
  | none => DecodeResult.fail
  | some acc => placeGroups acc.reverse (List.replicate 11 none) 0

/-- Mirrors `Rank::from_hnfen` (types.rs). -/
def Rank.from_hnfen (s : String) : DecodeResult Rank :=
  rankDecode s.toList

/-- Rust `Vec::join` on character lists with a one-character separator. -/
def joinSep (sep : Char) : List (List Char) → List Char
  | [] => []
  | [x] => x
  | x :: y :: rest => x ++ sep :: joinSep sep (y :: rest)

/-- Mirrors `Board::as_hnfen` (types.rs): ranks joined by `"/"`, then a
space and the side-to-move token (always emitted). -/
def Board.as_hnfen (b : Board) : String :=
  ⟨joinSep '/' (b.ranks.map fun r => encChars r.fields 0) ++
    ' ' :: [playerChar b.next]⟩

/-- Splitter mirroring Rust `str::split_whitespace` for the ASCII whitespace
the notation uses: maximal non-whitespace runs, no empty items. -/
def isWs (c : Char) : Bool :=
  c = ' ' || c = '\t' || c = '\n' || c = '\r'

/-- Worker for `splitWs`; `cur` is the current token reversed. -/
def splitWsAux : List Char → List Char → List (List Char)
  | [], cur => if cur = [] then [] else [cur.reverse]
  | c :: rest, cur =>
    if isWs c then
      if cur = [] then splitWsAux rest [] else cur.reverse :: splitWsAux rest []
    else
      splitWsAux rest (c :: cur)

/-- Rust `str::split_whitespace` on a character list. -/
def splitWs (cs : List Char) : List (List Char) :=
  splitWsAux cs []

/-- Worker for `splitOnChar`; `cur` is the current piece reversed. -/
def splitOnCharAux (sep : Char) : List Char → List Char → List (List Char)
  | [], cur => [cur.reverse]
  | c :: rest, cur =>
    if c = sep then cur.reverse :: splitOnCharAux sep rest []
    else splitOnCharAux sep rest (c :: cur)

/-- Rust `str::split` on a single separator character (keeps empty pieces). -/
def splitOnChar (sep : Char) (cs : List Char) : List (List Char) :=
  splitOnCharAux sep cs []

/-- The rank collection of `Board::from_hnfen` (types.rs):
`map(Rank::from_hnfen).collect::<Option<Vec<Rank>>>()` — sequential, the
first failure (or panic) wins. -/
def collectRanks : List (List Char) → DecodeResult (List Rank)
  | [] => DecodeResult.ok []
  | cs :: rest =>
    match rankDecode cs with
    | DecodeResult.ok r =>
      match collectRanks rest with
      | DecodeResult.ok rs => DecodeResult.ok (r :: rs)
      | DecodeResult.fail => DecodeResult.fail
      | DecodeResult.panic => DecodeResult.panic
    | DecodeResult.fail => DecodeResult.fail
    | DecodeResult.panic => DecodeResult.panic

/-- Mirrors `Board::from_hnfen` (types.rs).  The source panics (`panic`)
when the input has no whitespace-separated token at all (`splits[0]`) and
when the rank count differs from 11 (`try_into().unwrap()`); a missing side
token defaults to black, an unrecognized one fails. -/
def Board.from_hnfen (s : String) : DecodeResult Board :=
  match splitWs s.toList with
  | [] => DecodeResult.panic
  | first :: rest =>
    match collectRanks (splitOnChar '/' first) with
    | DecodeResult.ok rs =>
      if rs.length = 11 then
        match rest.head? with
        | some sideTok =>
          match Player.from_hnfenChars sideTok with
          | some pl => DecodeResult.ok { ranks := rs, next := pl }
          | none => DecodeResult.fail
        | none => DecodeResult.ok { ranks := rs, next := Player.black }
      else
        DecodeResult.panic
    | DecodeResult.fail => DecodeResult.fail
    | DecodeResult.panic => DecodeResult.panic

/-- Mirrors `Move::as_hnfen` (moves.rs): the two position tokens appended. -/
def Move.as_hnfen (m : Move) : String :=
  ⟨m.fromPos.column :: (Nat.toDigits 10 m.fromPos.rank) ++
    m.toPos.column :: (Nat.toDigits 10 m.toPos.rank)⟩

/-- Reads one column letter `[a-k]`. -/
def takeLetterAK : List Char → Option (Char × List Char)
  | c :: rest => if 'a' ≤ c ∧ c ≤ 'k' then some (c, rest) else none
  | [] => none

/-- Reads `\d{1,2}` as a number.  The regex's greedy two-digit attempt with
backtracking is equivalent to this one-character lookahead because the digit
and letter alphabets are disjoint (dropping a digit can never expose the
letter or end-of-input the rest of the pattern needs). -/
def takeNum12 : List Char → Option (Nat × List Char)
  | c1 :: rest =>
    if c1.isDigit then
      match rest with
      | c2 :: rest2 =>
        if c2.isDigit then some ((c1.toNat - 48) * 10 + (c2.toNat - 48), rest2)
        else some (c1.toNat - 48, rest)
      | [] => some (c1.toNat - 48, [])
    else
      none
  | [] => none

/-- Matcher for the move regex `^([a-k])(\d{1,2})([a-k])(\d{1,2})$`. -/
def parseMovePattern (cs : List Char) : Option (Char × Nat × Char × Nat) :=
  match takeLetterAK cs with
  | none => none
  | some (c1, r1) =>
    match takeNum12 r1 with
    | none => none
    | some (n1, r2) =>
      match takeLetterAK r2 with
      | none => none
      | some (c2, r3) =>
        match takeNum12 r3 with
        | none => none
        | some (n2, r4) => if r4 = [] then some (c1, n1, c2, n2) else none

/-- Mirrors `Move::from_hnfen` (moves.rs): the source calls
`move_re.captures(hnfen).unwrap()`, so any input the regex rejects panics
instead of returning `None`. -/
def Move.from_hnfen (s : String) : DecodeResult Move :=
  match parseMovePattern s.toList with
  | some (c1, n1, c2, n2) =>
    DecodeResult.ok { fromPos := { column := c1, rank := n1 },
                      toPos := { column := c2, rank := n2 } }
  | none => DecodeResult.panic

/-- Mirrors `DEFAULT_START_HNFEN` (lib.rs). -/
def DEFAULT_START_HNFEN : String :=
  "3aaaaa3/5a5/11/a4h4a/a3hhh3a/aa1hhKhh1aa/a3hhh3a/a4h4a/11/5a5/3aaaaa3 a"

/-- Well-formedness every Rust `Board` has by construction: the fixed array
sizes `[Rank; 11]` and `[Option<Piece>; 11]`. -/
def Board.WF (b : Board) : Prop :=
  b.ranks.length = 11 ∧ ∀ r ∈ b.ranks, r.fields.length = 11

instance (b : Board) : Decidable b.WF := by
  unfold Board.WF
  infer_instance

/-- At most one cell of the board holds the king (quantified over the 11×11
index range; out-of-range reads are `none` and cannot hold a king). -/
def atMostOneKing (b : Board) : Prop :=
  ∀ x1 y1 x2 y2 : Fin 11,
    b.getIdx x1 y1 = some Piece.king → b.getIdx x2 y2 = some Piece.king →
    x1 = x2 ∧ y1 = y2

instance (b : Board) : Decidable (atMostOneKing b) := by
  unfold atMostOneKing
  infer_instance

/-- True exactly on `DecodeResult.ok`. -/
def DecodeResult.isOk {α : Type} : DecodeResult α → Bool
  | DecodeResult.ok _ => true
  | _ => false

/-- The decoded value, or `a` on failure/panic. -/
def DecodeResult.getOr {α : Type} : DecodeResult α → α → α
  | DecodeResult.ok v, _ => v
  | _, a => a

/-- Fallback board for `DecodeResult.getOr` in concrete statements. -/
def emptyBoard : Board :=
  { ranks := [], next := Player.black }

/-! ### Cell access lemmas -/

/-- Master description of a cell read after a cell write: the written value
when the write landed (same cell, both indices inside the actual lists),
otherwise the unchanged read. -/
theorem getIdx_setIdx (bb : Board) (x y : Nat) (v : Option Piece) (p q : Nat) :
    (bb.setIdx x y v).getIdx p q =
      if x = p ∧ y = q ∧ ∃ r, bb.ranks[q]? = some r ∧ p < r.fields.length then v
      else bb.getIdx p q := by
  unfold Board.setIdx
  cases hr : bb.ranks[y]? with
  | none =>
    rw [if_neg]
    rintro ⟨rfl, rfl, r, hrq, -⟩
    rw [hr] at hrq
    cases hrq
  | some r =>
    have hylen : y < bb.ranks.length := (List.getElem?_eq_some.mp hr).1
    by_cases hq : y = q
    · subst hq
      by_cases hp : x = p
      · subst hp
        by_cases hx : x < r.fields.length
        · rw [if_pos ⟨rfl, rfl, r, hr, hx⟩]
          simp [Board.getIdx, List.getElem?_set, hylen, hx]
        · rw [if_neg (by
            rintro ⟨-, -, r', hr', hx'⟩
            rw [hr] at hr'
            cases hr'
            exact hx hx')]
          simp [Board.getIdx, List.getElem?_set, hylen, hx, hr,
            List.getElem?_eq_none (Nat.le_of_not_lt hx)]
      · rw [if_neg (by rintro ⟨h1, -⟩; exact hp h1)]
        simp [Board.getIdx, List.getElem?_set, hylen, hp, hr]
    · rw [if_neg (by rintro ⟨-, rfl, -⟩; exact hq rfl)]
      simp [Board.getIdx, List.getElem?_set, hq]

theorem getIdx_setIdx_ne (b : Board) (x y : Nat) (v : Option Piece) (p q : Nat)
    (h : p ≠ x ∨ q ≠ y) :
    (b.setIdx x y v).getIdx p q = b.getIdx p q := by
  rw [getIdx_setIdx, if_neg]
  rintro ⟨rfl, rfl, -⟩
  rcases h with h | h <;> exact h rfl

theorem getIdx_setIdx_self (b : Board) (x y : Nat) (v : Option Piece)
    (hb : b.WF) (hx : x < 11) (hy : y < 11) :
    (b.setIdx x y v).getIdx x y = v := by
  obtain ⟨hlen, hall⟩ := hb
  have hy' : y < b.ranks.length := by omega
  have hr : b.ranks[y]? = some b.ranks[y] := List.getElem?_eq_getElem hy'
  have hfl : (b.ranks[y]).fields.length = 11 := hall _ (List.getElem_mem hy')
  rw [getIdx_setIdx, if_pos ⟨rfl, rfl, b.ranks[y], hr, by omega⟩]

theorem WF_setIdx (b : Board) (x y : Nat) (v : Option Piece) (hb : b.WF) :
    (b.setIdx x y v).WF := by
  obtain ⟨hlen, hall⟩ := hb
  unfold Board.setIdx
  cases hr : b.ranks[y]? with
  | none => exact ⟨hlen, hall⟩
  | some r =>
    refine ⟨by simpa using hlen, ?_⟩
    intro r' hr'
    rcases List.mem_or_eq_of_mem_set hr' with hmem | hEq
    · exact hall _ hmem
    · subst hEq
      have : r ∈ b.ranks := by
        rcases List.getElem?_eq_some.mp hr with ⟨hy', hget⟩
        exact hget ▸ List.getElem_mem hy'
      simpa using hall _ this

/-! ### Claim C3, C6, C7 and the concrete counterexamples -/

/-- C3: the claim states that no input string causes any HNFEN decoder to
abort the process.  The code violates this: `Move::from_hnfen` calls
`.unwrap()` on the regex captures (panics on non-matching text),
`Board::from_hnfen` calls `.try_into().unwrap()` (panics when the rank
count differs from 11), and `Rank::from_hnfen` writes `fields[c_index]`
unchecked (panics when an occupant token falls past cell 11).  This theorem
evaluates the three decoders at such inputs, each reaching the abort. -/
theorem c3_decoders_abort :
    Move.from_hnfen "zz" = DecodeResult.panic ∧
    Board.from_hnfen "11/11" = DecodeResult.panic ∧
    Rank.from_hnfen "10aa" = DecodeResult.panic := by
  decide

/-- C6: the claim states that rank decoding returns a failure exactly when
the expanded cell count differs from 11 or a token is unrecognized.  On
`"11a"` the expanded count is 12, so the claim demands a returned failure,
but the source instead writes `rank.fields[11]` and aborts (index out of
bounds); the decode evaluates to the panic marker, not to `fail`. -/
theorem c6_rank_decode_aborts_past_cell_eleven :
    Rank.from_hnfen "11a" = DecodeResult.panic := by
  decide

set_option maxRecDepth 10000

/-- C7: decoding the default starting text succeeds, and move generation
produces exactly 116 moves with the attacker (black) to move and exactly 60
with the defender (white) to move. -/
theorem c7_default_move_counts :
    (Board.from_hnfen DEFAULT_START_HNFEN).isOk = true ∧
    (possible_moves ((Board.from_hnfen DEFAULT_START_HNFEN).getOr emptyBoard)).length = 116 ∧
    (possible_moves { (Board.from_hnfen DEFAULT_START_HNFEN).getOr emptyBoard with
      next := Player.white }).length = 60 := by
  decide

/-- C1 (counterexample): the claim states an adjacent enemy piece is removed
when the landing cell is a special cell (corner or castle).  Here black moves
to (2,0); the adjacent cell (1,0) holds a white piece and the landing cell
(0,0) is an empty corner — a special cell — yet after `apply` the white
piece is still there (the source only captures against an occupying piece of
the mover's colour). -/
theorem c1_counterexample :
    ((Board.from_hnfen "1h9/11/11/2a8/11/11/11/11/11/11/11").getOr emptyBoard).apply
        { fromPos := Position.from_indices 2 3, toPos := Position.from_indices 2 0 } =
      some ((Board.from_hnfen "1ha8/11/11/11/11/11/11/11/11/11/11 h").getOr emptyBoard) ∧
    ((Board.from_hnfen "1ha8/11/11/11/11/11/11/11/11/11/11 h").getOr emptyBoard).getIdx 1 0 =
      some (Piece.normal Player.white) ∧
    is_castle 0 0 = true ∧
    ((Board.from_hnfen "1h9/11/11/2a8/11/11/11/11/11/11/11").getOr emptyBoard).getIdx 0 0 =
      none := by
  decide

/-- C2 (counterexample): the claim states that an occupied castle blocks
non-king sliding like any occupied cell, so no move past it is emitted.
Here the castle (5,5) holds a white piece, black has a piece at (2,5), and
move generation still emits the move to (6,5) beyond the occupied castle
(the source `continue`s at the castle before its occupancy check). -/
theorem c2_counterexample :
    ((Board.from_hnfen "11/11/11/11/11/2a2h5/11/11/11/11/11").getOr emptyBoard).getIdx 5 5 =
      some (Piece.normal Player.white) ∧
    ((possible_moves
        ((Board.from_hnfen "11/11/11/11/11/2a2h5/11/11/11/11/11").getOr emptyBoard)).contains
      { fromPos := Position.from_indices 2 5, toPos := Position.from_indices 6 5 }) = true := by
  decide

/-- C5 (counterexample): the claim states decode-then-encode is the identity
on valid texts *including* rank texts with leading zeros and board texts
omitting the side token.  Both normalize instead: `"00011"` decodes to the
empty rank which re-encodes as `"11"`, and a board text without a side token
re-encodes with `" a"` appended. -/
theorem c5_counterexample :
    Rank.from_hnfen "00011" = DecodeResult.ok { fields := List.replicate 11 none } ∧
    Rank.as_hnfen { fields := List.replicate 11 none } = "11" ∧
    ("11" : String) ≠ "00011" ∧
    Board.from_hnfen "11/11/11/11/11/11/11/11/11/11/11" =
      DecodeResult.ok
        { ranks := List.replicate 11 { fields := List.replicate 11 none },
          next := Player.black } ∧
    Board.as_hnfen
        { ranks := List.replicate 11 { fields := List.replicate 11 none },
          next := Player.black } =
      "11/11/11/11/11/11/11/11/11/11/11 a" ∧
    ("11/11/11/11/11/11/11/11/11/11/11 a" : String) ≠ "11/11/11/11/11/11/11/11/11/11/11" := by
  decide

/-- C9 (counterexample): the claim states every position obtainable through
move decoding has its row in 1–11.  The move regex accepts any one- or
two-digit row, so `"a0a1"` decodes successfully to a position with row 0,
whose zero-based y index is 11 — outside [0, 11). -/
theorem c9_counterexample :
    Move.from_hnfen "a0a1" =
      DecodeResult.ok { fromPos := { column := 'a', rank := 0 },
                        toPos := { column := 'a', rank := 1 } } ∧
    ¬ (1 ≤ ({ column := 'a', rank := 0 } : Position).rank) ∧
    ({ column := 'a', rank := 0 } : Position).to_indices.2 = 11 := by
  decide

/-! ### Claim C8 -/

/-- C8: applying a move whose `from` cell is empty is a silent no-op — the
board is returned entirely unchanged, the side to move is not toggled, and
no panic is reached. -/
theorem c8_empty_from_noop (b : Board) (m : Move)
    (hx : m.fromPos.to_indices.1 < 11) (hy : m.fromPos.to_indices.2 < 11)
    (he : b.getIdx m.fromPos.to_indices.1 m.fromPos.to_indices.2 = none) :
    b.apply m = some b := by
  rcases hEq : m.fromPos.to_indices with ⟨x, y⟩
  rw [hEq] at hx hy he
  unfold Board.apply
  rw [hEq]
  simp only []
  rw [if_pos ⟨hx, hy⟩, he]

/-- Witness for C8 at a concrete empty board and move. -/
theorem c8_witness :
    ((Board.from_hnfen "11/11/11/11/11/11/11/11/11/11/11").getOr emptyBoard).apply
        { fromPos := Position.from_indices 3 3, toPos := Position.from_indices 3 5 } =
      some ((Board.from_hnfen "11/11/11/11/11/11/11/11/11/11/11").getOr emptyBoard) :=
  c8_empty_from_noop _ _ (by decide) (by decide) (by decide)

/-! ### Claim C4 -/

/-- One direction of the king-capture scan equals the spec-side disjunction:
the neighbouring cell is on the board, and it is a special cell or holds a
black (attacker) piece. -/
theorem kingNeighborHostile_iff (b : Board) (cx cy : Int) :
    (if in_board cx cy then
        (if is_castle cx.toNat cy.toNat then true
         else
           match b.getIdx cx.toNat cy.toNat with
           | some p => p.color == Player.black
           | none => false)
      else false) = true ↔
      (in_board cx cy = true ∧
        (is_castle cx.toNat cy.toNat = true ∨
          ∃ p, b.getIdx cx.toNat cy.toNat = some p ∧ p.color = Player.black)) := by
  by_cases hin : in_board cx cy = true
  · rw [if_pos hin]
    by_cases hc : is_castle cx.toNat cy.toNat = true
    · simp [hc, hin]
    · rw [if_neg hc]
      cases hg : b.getIdx cx.toNat cy.toNat with
      | none => simp [hg, hc, hin]
      | some p => simp [hg, hc, hin, beq_iff_eq]
  · simp [hin]

/-- C4: the king-capture test is true iff every one of the four orthogonal
neighbours of the position is on the board and is either a special cell
(corner or castle) or occupied by a black (attacker) piece; an off-board,
empty or white-occupied neighbour makes it false.  The test is a pure
function of the board (`&self` in the source), so it cannot mutate it. -/
theorem c4_king_capture_iff (b : Board) (pos : Position) :
    b.is_king_capture pos = true ↔
      ∀ dir ∈ Direction.card,
        in_board ((pos.to_indices.1 : Int) + (dir.vector 1).1)
            ((pos.to_indices.2 : Int) + (dir.vector 1).2) = true ∧
        (is_castle (((pos.to_indices.1 : Int) + (dir.vector 1).1).toNat)
              (((pos.to_indices.2 : Int) + (dir.vector 1).2).toNat) = true ∨
          ∃ p, b.getIdx (((pos.to_indices.1 : Int) + (dir.vector 1).1).toNat)
                (((pos.to_indices.2 : Int) + (dir.vector 1).2).toNat) = some p ∧
              p.color = Player.black) := by
  unfold Board.is_king_capture
  rw [List.all_eq_true]
  exact forall_congr' fun dir => forall_congr' fun _ => kingNeighborHostile_iff b _ _

/-! ### Claim C2 (amended) -/

/-- C2 (amended): for a non-king mover the sliding scan never reads the
castle cell (5,5) — the pass-through `continue` happens before the occupancy
check — so the emitted moves are unchanged under any replacement of the
castle occupant: the pass-through applies regardless of whether the castle
is empty or occupied. -/
theorem c2_castle_pass_through_ignores_occupancy (b : Board) (v : Option Piece)
    (fromPos : Position) (cx cy : Int) (dir : Direction) (fuel len : Nat) :
    scanFrom (b.setIdx 5 5 v) false fromPos cx cy dir fuel len =
      scanFrom b false fromPos cx cy dir fuel len := by
  induction fuel generalizing len with
  | zero => rfl
  | succ f ih =>
    simp only [scanFrom]
    by_cases hin :
        in_board (cx + (dir.vector len).1) (cy + (dir.vector len).2) = true
    · rw [if_pos hin, if_pos hin]
      by_cases hcor :
          is_corner (cx + (dir.vector len).1).toNat (cy + (dir.vector len).2).toNat = true
      · simp [hcor]
      · by_cases hcas :
            ((cx + (dir.vector len).1).toNat == 5 &&
              (cy + (dir.vector len).2).toNat == 5) = true
        · simp [hcor, hcas, ih]
        · have hne : (cx + (dir.vector len).1).toNat ≠ 5 ∨
              (cy + (dir.vector len).2).toNat ≠ 5 := by
            by_contra hcon
            push_neg at hcon
            exact hcas (by simp [hcon.1, hcon.2])
          simp [hcor, hcas, getIdx_setIdx_ne b 5 5 v _ _ hne, ih]
    · rw [if_neg hin, if_neg hin]

/-! ### Claim C10 -/

/-- A cell that reads a piece after some cell was cleared read that same
piece before the clear. -/
theorem getIdx_setIdx_none_some (bb : Board) (x y p q : Nat) (pc : Piece)
    (h : (bb.setIdx x y none).getIdx p q = some pc) :
    bb.getIdx p q = some pc := by
  rw [getIdx_setIdx] at h
  split at h
  · exact absurd h (by simp)
  · exact h

/-- Writing a cell either leaves a read unchanged, or the read is at the
written cell and returns the written value. -/
theorem getIdx_setIdx_or (bb : Board) (x y : Nat) (v : Option Piece) (p q : Nat) :
    (bb.setIdx x y v).getIdx p q = bb.getIdx p q ∨
      (p = x ∧ q = y ∧ (bb.setIdx x y v).getIdx p q = v) := by
  rw [getIdx_setIdx]
  by_cases hc : x = p ∧ y = q ∧ ∃ r, bb.ranks[q]? = some r ∧ p < r.fields.length
  · rw [if_pos hc]
    exact Or.inr ⟨hc.1.symm, hc.2.1.symm, rfl⟩
  · rw [if_neg hc]
    exact Or.inl rfl

/-- Writing a cell that previously read `some` makes the cell read the
written value (the write cannot silently miss). -/
theorem getIdx_setIdx_self_of_some (bb : Board) (x y : Nat) (v : Option Piece)
    (w : Piece) (hw : bb.getIdx x y = some w) :
    (bb.setIdx x y v).getIdx x y = v := by
  unfold Board.getIdx at hw
  rcases hr : bb.ranks[y]? with _ | r
  · rw [hr] at hw
    exact absurd hw (by simp)
  · rw [hr] at hw
    simp only [Option.some_bind] at hw
    rcases hf : r.fields[x]? with _ | cell
    · rw [hf] at hw
      exact absurd hw (by simp)
    · have hx' : x < r.fields.length := (List.getElem?_eq_some.mp hf).1
      rw [getIdx_setIdx, if_pos ⟨rfl, rfl, r, hr, hx'⟩]

/-- The shared capture tail only removes pieces: a cell reading `some`
afterwards read the same content before. -/
theorem captureStep_getIdx_some (bb : Board) (mc : Player) (ox oy : Nat) (dx dy : Int)
    (k : Bool) (p q : Nat) (pc : Piece)
    (h : (captureStep bb mc ox oy dx dy k).getIdx p q = some pc) :
    bb.getIdx p q = some pc := by
  unfold captureStep Board.set at h
  simp only [] at h
  iterate 6 (all_goals try split at h)
  all_goals first
    | exact h
    | exact getIdx_setIdx_none_some _ _ _ _ _ _ h

/-- One capture-scan direction only removes pieces. -/
theorem captureDir_getIdx_some (bb : Board) (mc : Player) (x y : Nat) (dir : Direction)
    (p q : Nat) (pc : Piece)
    (h : (captureDir bb mc x y dir).getIdx p q = some pc) :
    bb.getIdx p q = some pc := by
  unfold captureDir at h
  simp only [] at h
  iterate 6 (all_goals try split at h)
  all_goals first
    | exact h
    | exact captureStep_getIdx_some _ _ _ _ _ _ _ _ _ _ h

/-- The whole capture scan only removes pieces. -/
theorem foldl_captureDir_getIdx_some (dirs : List Direction) (bb : Board) (mc : Player)
    (x y p q : Nat) (pc : Piece)
    (h : (dirs.foldl (fun b d => captureDir b mc x y d) bb).getIdx p q = some pc) :
    bb.getIdx p q = some pc := by
  induction dirs generalizing bb with
  | nil => exact h
  | cons d rest ih =>
    exact captureDir_getIdx_some bb mc x y d p q pc (ih (captureDir bb mc x y d) h)

/-- C10: applying any move to a board holding at most one king yields a
board still holding at most one king — relocation re-places the one piece
read from the `from` cell and the capture scan only removes pieces, so no
king is ever created. -/
theorem c10_at_most_one_king_preserved (b : Board) (m : Move) (b' : Board)
    (hb : atMostOneKing b) (h : b.apply m = some b') :
    atMostOneKing b' := by
  unfold Board.apply at h
  rcases hfi : m.fromPos.to_indices with ⟨fx, fy⟩
  rw [hfi] at h
  simp only [] at h
  by_cases hfb : fx < 11 ∧ fy < 11
  · rw [if_pos hfb] at h
    rcases hg : b.getIdx fx fy with _ | piece
    · rw [hg] at h
      obtain rfl : b = b' := by injection h
      exact hb
    · rw [hg] at h
      rcases hti : m.toPos.to_indices with ⟨tx, ty⟩
      rw [hti] at h
      simp only [] at h
      by_cases htb : tx < 11 ∧ ty < 11
      · rw [if_pos htb] at h
        obtain rfl :
            ({ Direction.card.foldl
                (fun bb dir => captureDir bb piece.color tx ty dir)
                ((b.setIdx fx fy none).setIdx tx ty (some piece)) with
              next := piece.color.opposite } : Board) = b' := by
          injection h
        intro x1 y1 x2 y2 h1 h2
        have h1' : (Direction.card.foldl
            (fun bb dir => captureDir bb piece.color tx ty dir)
            ((b.setIdx fx fy none).setIdx tx ty (some piece))).getIdx x1 y1 =
            some Piece.king := h1
        have h2' : (Direction.card.foldl
            (fun bb dir => captureDir bb piece.color tx ty dir)
            ((b.setIdx fx fy none).setIdx tx ty (some piece))).getIdx x2 y2 =
            some Piece.king := h2
        have h1'' := foldl_captureDir_getIdx_some _ _ _ _ _ _ _ _ h1'
        have h2'' := foldl_captureDir_getIdx_some _ _ _ _ _ _ _ _ h2'
        have hD : ∀ p q : Nat,
            (((b.setIdx fx fy none).setIdx tx ty (some piece)).getIdx p q =
              some Piece.king) →
            (p = tx ∧ q = ty ∧ piece = Piece.king) ∨
              (b.getIdx p q = some Piece.king ∧
                (b.setIdx fx fy none).getIdx p q = some Piece.king) := by
          intro p q hpq
          rcases getIdx_setIdx_or (b.setIdx fx fy none) tx ty (some piece) p q with
            heq | ⟨rfl, rfl, hval⟩
          · rw [heq] at hpq
            have hpq' := getIdx_setIdx_none_some b fx fy p q Piece.king hpq
            exact Or.inr ⟨hpq', hpq⟩
          · rw [hval] at hpq
            exact Or.inl ⟨rfl, rfl, by injection hpq⟩
        have hclear : (b.setIdx fx fy none).getIdx fx fy = none :=
          getIdx_setIdx_self_of_some b fx fy none piece hg
        rcases hD x1 y1 h1'' with ⟨he1x, he1y, rfl⟩ | ⟨hb1, hc1⟩
        · rcases hD x2 y2 h2'' with ⟨he2x, he2y, -⟩ | ⟨hb2, hc2⟩
          · exact ⟨Fin.ext (he1x.trans he2x.symm), Fin.ext (he1y.trans he2y.symm)⟩
          · obtain ⟨hq1, hq2⟩ :=
              hb ⟨fx, hfb.1⟩ ⟨fy, hfb.2⟩ x2 y2 hg hb2
            have hx2 : (x2 : Nat) = fx := (congrArg Fin.val hq1).symm
            have hy2 : (y2 : Nat) = fy := (congrArg Fin.val hq2).symm
            rw [hx2, hy2, hclear] at hc2
            exact absurd hc2 (by simp)
        · rcases hD x2 y2 h2'' with ⟨he2x, he2y, rfl⟩ | ⟨hb2, hc2⟩
          · obtain ⟨hq1, hq2⟩ :=
              hb ⟨fx, hfb.1⟩ ⟨fy, hfb.2⟩ x1 y1 hg hb1
            have hx1 : (x1 : Nat) = fx := (congrArg Fin.val hq1).symm
            have hy1 : (y1 : Nat) = fy := (congrArg Fin.val hq2).symm
            rw [hx1, hy1, hclear] at hc1
            exact absurd hc1 (by simp)
          · exact hb x1 y1 x2 y2 hb1 hb2
      · rw [if_neg htb] at h
        exact absurd h (by simp)
  · rw [if_neg hfb] at h
    exact absurd h (by simp)

/-! ### Claim C1 (amended) -/

theorem in_board_elim {a b : Int} (h : in_board a b = true) :
    0 ≤ a ∧ a < 11 ∧ 0 ≤ b ∧ b < 11 := by
  unfold in_board at h
  simp only [Bool.and_eq_true, decide_eq_true_eq] at h
  tauto

/-- Index → position → index round-trip on the board range (the source's
test `index_conv`, generalized). -/
theorem to_indices_from_indices :
    ∀ x : Nat, x < 11 → ∀ y : Nat, y < 12 →
      (Position.from_indices x y).to_indices = (x, y) := by
  decide

/-- The four unit vectors are pairwise distinct. -/
theorem vector_one_injective :
    ∀ d d' : Direction, d.vector 1 = d'.vector 1 → d = d' := by
  decide

/-- No unit vector is twice another. -/
theorem vector_one_ne_double :
    ∀ d d' : Direction,
      ¬((d'.vector 1).1 = 2 * (d.vector 1).1 ∧ (d'.vector 1).2 = 2 * (d.vector 1).2) := by
  decide

/-- Frame property of one capture-scan direction: only the cell adjacent to
`(x, y)` in that direction can change. -/
theorem captureDir_frame (bb : Board) (mc : Player) (x y : Nat) (d : Direction) (p q : Nat)
    (hne : ¬(((p : Int) = (x : Int) + (d.vector 1).1) ∧
      ((q : Int) = (y : Int) + (d.vector 1).2))) :
    (captureDir bb mc x y d).getIdx p q = bb.getIdx p q := by
  unfold captureDir captureStep Board.set
  simp only []
  by_cases hin : in_board ((x : Int) + (d.vector 1).1) ((y : Int) + (d.vector 1).2) = true
  · rw [if_pos hin]
    obtain ⟨hx0, hx1, hy0, hy1⟩ := in_board_elim hin
    have hrt : (Position.from_indices ((x : Int) + (d.vector 1).1).toNat
        ((y : Int) + (d.vector 1).2).toNat).to_indices =
        (((x : Int) + (d.vector 1).1).toNat, ((y : Int) + (d.vector 1).2).toNat) :=
      to_indices_from_indices _ (by omega) _ (by omega)
    have hne' : p ≠ ((x : Int) + (d.vector 1).1).toNat ∨
        q ≠ ((y : Int) + (d.vector 1).2).toNat := by
      by_contra hcon
      push_neg at hcon
      exact hne ⟨by omega, by omega⟩
    iterate 6 (all_goals try split)
    all_goals first
      | rfl
      | (rw [hrt]; exact getIdx_setIdx_ne bb _ _ none p q hne')
  · rw [if_neg hin]

/-- Decision of one capture-scan direction at the adjacent cell when that
cell holds an opposing normal piece and the landing cell is on the board:
the adjacent cell ends empty when the landing cell holds a piece of the
mover's colour, and keeps the enemy piece otherwise. -/
theorem captureDir_adjacent_normal (bb : Board) (mc : Player) (x y : Nat) (d : Direction)
    (c : Player)
    (hin1 : in_board ((x : Int) + (d.vector 1).1) ((y : Int) + (d.vector 1).2) = true)
    (hadj : bb.getIdx ((x : Int) + (d.vector 1).1).toNat
      ((y : Int) + (d.vector 1).2).toNat = some (Piece.normal c))
    (hcne : c ≠ mc)
    (hin2 : in_board ((((x : Int) + (d.vector 1).1).toNat : Int) + (d.vector 1).1)
      ((((y : Int) + (d.vector 1).2).toNat : Int) + (d.vector 1).2) = true) :
    (captureDir bb mc x y d).getIdx ((x : Int) + (d.vector 1).1).toNat
        ((y : Int) + (d.vector 1).2).toNat =
      match bb.getIdx ((((x : Int) + (d.vector 1).1).toNat : Int) + (d.vector 1).1).toNat
          ((((y : Int) + (d.vector 1).2).toNat : Int) + (d.vector 1).2).toNat with
      | some p => if p.color = mc then none else some (Piece.normal c)
      | none => some (Piece.normal c) := by
  obtain ⟨hx0, hx1, hy0, hy1⟩ := in_board_elim hin1
  have hrt : (Position.from_indices ((x : Int) + (d.vector 1).1).toNat
      ((y : Int) + (d.vector 1).2).toNat).to_indices =
      (((x : Int) + (d.vector 1).1).toNat, ((y : Int) + (d.vector 1).2).toNat) :=
    to_indices_from_indices _ (by omega) _ (by omega)
  unfold captureDir
  simp only []
  rw [if_pos hin1, hadj]
  simp only []
  rw [if_pos hcne]
  unfold captureStep Board.set
  simp only []
  rw [if_pos hin2]
  simp only [Bool.false_eq_true, if_false]
  cases hl : bb.getIdx ((((x : Int) + (d.vector 1).1).toNat : Int) + (d.vector 1).1).toNat
      ((((y : Int) + (d.vector 1).2).toNat : Int) + (d.vector 1).2).toNat with
  | none => exact hadj
  | some p =>
    simp only []
    by_cases hpc : p.color = mc
    · rw [if_pos hpc, if_pos hpc, hrt]
      exact getIdx_setIdx_self_of_some bb _ _ none (Piece.normal c) hadj
    · rw [if_neg hpc, if_neg hpc]
      exact hadj

/-- Frame property of a capture-scan fold: any cell not adjacent to
`(x, y)` in one of the scanned directions is untouched. -/
theorem foldl_captureDir_frame (ds : List Direction) (b0 : Board) (mc : Player)
    (x y p q : Nat)
    (hne : ∀ d' ∈ ds, ¬(((p : Int) = (x : Int) + (d'.vector 1).1) ∧
      ((q : Int) = (y : Int) + (d'.vector 1).2))) :
    (ds.foldl (fun bb d' => captureDir bb mc x y d') b0).getIdx p q = b0.getIdx p q := by
  induction ds generalizing b0 with
  | nil => rfl
  | cons d' rest ih =>
    rw [List.foldl_cons, ih _ fun e he => hne e (List.mem_cons_of_mem _ he)]
    exact captureDir_frame b0 mc x y d' p q (hne d' (List.mem_cons_self _ _))

/-- Content of the cell adjacent to the destination in direction `d` after
the whole capture scan, when that cell holds an opposing normal piece and
the landing cell is on the board: empty iff the landing cell holds a piece
of the mover's colour.  `pre`/`post` are the directions scanned before/after
`d`; they touch neither the adjacent nor the landing cell. -/
theorem capture_scan_decision (pre post : List Direction) (b2 : Board) (mc : Player)
    (tx ty : Nat) (d : Direction) (c : Player)
    (hpre : ∀ d' ∈ pre, d' ≠ d) (hpost : ∀ d' ∈ post, d' ≠ d)
    (hin1 : in_board ((tx : Int) + (d.vector 1).1) ((ty : Int) + (d.vector 1).2) = true)
    (hadj : b2.getIdx ((tx : Int) + (d.vector 1).1).toNat
      ((ty : Int) + (d.vector 1).2).toNat = some (Piece.normal c))
    (hcne : c ≠ mc)
    (hin2 : in_board ((((tx : Int) + (d.vector 1).1).toNat : Int) + (d.vector 1).1)
      ((((ty : Int) + (d.vector 1).2).toNat : Int) + (d.vector 1).2) = true) :
    ((pre ++ d :: post).foldl (fun bb d' => captureDir bb mc tx ty d') b2).getIdx
        ((tx : Int) + (d.vector 1).1).toNat ((ty : Int) + (d.vector 1).2).toNat =
      match b2.getIdx ((((tx : Int) + (d.vector 1).1).toNat : Int) + (d.vector 1).1).toNat
          ((((ty : Int) + (d.vector 1).2).toNat : Int) + (d.vector 1).2).toNat with
      | some p => if p.color = mc then none else some (Piece.normal c)
      | none => some (Piece.normal c) := by
  obtain ⟨ho1, ho2, ho3, ho4⟩ := in_board_elim hin1
  obtain ⟨hl1, hl2, hl3, hl4⟩ := in_board_elim hin2
  have hne_adj : ∀ d' : Direction, d' ≠ d →
      ¬(((((tx : Int) + (d.vector 1).1).toNat : Int) = (tx : Int) + (d'.vector 1).1) ∧
        ((((ty : Int) + (d.vector 1).2).toNat : Int) = (ty : Int) + (d'.vector 1).2)) := by
    intro d' hd'
    have hcomp : ¬((d'.vector 1).1 = (d.vector 1).1 ∧ (d'.vector 1).2 = (d.vector 1).2) := by
      rintro ⟨h1, h2⟩
      exact hd' (vector_one_injective d' d (Prod.ext h1 h2))
    rintro ⟨h1, h2⟩
    exact hcomp ⟨by omega, by omega⟩
  have hne_land : ∀ d' : Direction,
      ¬((((((tx : Int) + (d.vector 1).1).toNat : Int) + (d.vector 1).1).toNat : Int) =
          (tx : Int) + (d'.vector 1).1 ∧
        (((((ty : Int) + (d.vector 1).2).toNat : Int) + (d.vector 1).2).toNat : Int) =
          (ty : Int) + (d'.vector 1).2) := by
    intro d'
    have hcomp := vector_one_ne_double d d'
    rintro ⟨h1, h2⟩
    exact hcomp ⟨by omega, by omega⟩
  rw [List.foldl_append, List.foldl_cons]
  rw [foldl_captureDir_frame post _ mc tx ty _ _ fun d' hd' => hne_adj d' (hpost d' hd')]
  have hpre_adj : (pre.foldl (fun bb d' => captureDir bb mc tx ty d') b2).getIdx
      ((tx : Int) + (d.vector 1).1).toNat ((ty : Int) + (d.vector 1).2).toNat =
      some (Piece.normal c) := by
    rw [foldl_captureDir_frame pre b2 mc tx ty _ _ fun d' hd' => hne_adj d' (hpre d' hd')]
    exact hadj
  rw [captureDir_adjacent_normal _ mc tx ty d c hin1 hpre_adj hcne hin2]
  rw [foldl_captureDir_frame pre b2 mc tx ty _ _ fun d' _ => hne_land d']

/-- C1 (amended): after applying a move (mover `piece` relocated from
`(fx, fy)` to `(tx, ty)`), for a cardinal direction `d` whose adjacent cell
holds an opposing normal piece and whose landing cell is on the board, the
adjacent enemy piece ends removed **iff** the landing cell (read on the
post-relocation board) holds a piece of the mover's colour.  An empty
special cell at the landing does not capture (cf. the counterexample); a
special cell matters only through a mover-side piece standing on it. -/
theorem c1_capture_iff_mover_piece_at_landing
    (b : Board) (m : Move) (b' : Board) (piece : Piece) (c : Player) (d : Direction)
    (fx fy tx ty : Nat)
    (hfi : m.fromPos.to_indices = (fx, fy))
    (hfb : fx < 11 ∧ fy < 11)
    (hg : b.getIdx fx fy = some piece)
    (hti : m.toPos.to_indices = (tx, ty))
    (htb : tx < 11 ∧ ty < 11)
    (hin1 : in_board ((tx : Int) + (d.vector 1).1) ((ty : Int) + (d.vector 1).2) = true)
    (hadj : ((b.setIdx fx fy none).setIdx tx ty (some piece)).getIdx
        ((tx : Int) + (d.vector 1).1).toNat ((ty : Int) + (d.vector 1).2).toNat =
      some (Piece.normal c))
    (hcne : c ≠ piece.color)
    (hin2 : in_board ((((tx : Int) + (d.vector 1).1).toNat : Int) + (d.vector 1).1)
      ((((ty : Int) + (d.vector 1).2).toNat : Int) + (d.vector 1).2) = true)
    (happ : b.apply m = some b') :
    (b'.getIdx ((tx : Int) + (d.vector 1).1).toNat
        ((ty : Int) + (d.vector 1).2).toNat = none ↔
      ∃ p, ((b.setIdx fx fy none).setIdx tx ty (some piece)).getIdx
          ((((tx : Int) + (d.vector 1).1).toNat : Int) + (d.vector 1).1).toNat
          ((((ty : Int) + (d.vector 1).2).toNat : Int) + (d.vector 1).2).toNat = some p ∧
        p.color = piece.color) := by
  unfold Board.apply at happ
  rw [hfi] at happ
  simp only [] at happ
  rw [if_pos hfb] at happ
  rw [hg] at happ
  simp only [] at happ
  rw [hti] at happ
  simp only [] at happ
  rw [if_pos htb] at happ
  obtain rfl :
      ({ Direction.card.foldl (fun bb dir => captureDir bb piece.color tx ty dir)
          ((b.setIdx fx fy none).setIdx tx ty (some piece)) with
        next := piece.color.opposite } : Board) = b' := by
    injection happ
  have hdecomp : ∃ pre post, Direction.card = pre ++ d :: post ∧
      (∀ d' ∈ pre, d' ≠ d) ∧ (∀ d' ∈ post, d' ≠ d) := by
    cases d
    · exact ⟨[], [Direction.down, Direction.left, Direction.right], rfl, by simp, by decide⟩
    · exact ⟨[Direction.up], [Direction.left, Direction.right], rfl, by decide, by decide⟩
    · exact ⟨[Direction.up, Direction.down], [Direction.right], rfl, by decide, by decide⟩
    · exact ⟨[Direction.up, Direction.down, Direction.left], [], rfl, by decide, by simp⟩
  obtain ⟨pre, post, hcard, hpre, hpost⟩ := hdecomp
  have hbig :
      ({ Direction.card.foldl (fun bb dir => captureDir bb piece.color tx ty dir)
          ((b.setIdx fx fy none).setIdx tx ty (some piece)) with
        next := piece.color.opposite } : Board).getIdx
        ((tx : Int) + (d.vector 1).1).toNat ((ty : Int) + (d.vector 1).2).toNat =
      (Direction.card.foldl (fun bb dir => captureDir bb piece.color tx ty dir)
          ((b.setIdx fx fy none).setIdx tx ty (some piece))).getIdx
        ((tx : Int) + (d.vector 1).1).toNat ((ty : Int) + (d.vector 1).2).toNat := rfl
  rw [hbig, hcard]
  rw [capture_scan_decision pre post _ piece.color tx ty d c hpre hpost hin1 hadj hcne hin2]
  cases hz : ((b.setIdx fx fy none).setIdx tx ty (some piece)).getIdx
      ((((tx : Int) + (d.vector 1).1).toNat : Int) + (d.vector 1).1).toNat
      ((((ty : Int) + (d.vector 1).2).toNat : Int) + (d.vector 1).2).toNat with
  | none => simp
  | some p =>
    by_cases hpc : p.color = piece.color
    · simp [hpc]
    · simp [hpc]

/-- Witness for the amended C1: black moves to (2,2); the white piece at
(2,1) is flanked against the black piece at (2,0), and is indeed removed. -/
theorem c1_witness :
    ((((Board.from_hnfen "2a8/2h8/11/11/11/2a8/11/11/11/11/11").getOr emptyBoard).apply
        { fromPos := Position.from_indices 2 5,
          toPos := Position.from_indices 2 2 }).getD emptyBoard).getIdx 2 1 = none :=
  (c1_capture_iff_mover_piece_at_landing
    ((Board.from_hnfen "2a8/2h8/11/11/11/2a8/11/11/11/11/11").getOr emptyBoard)
    { fromPos := Position.from_indices 2 5, toPos := Position.from_indices 2 2 }
    ((((Board.from_hnfen "2a8/2h8/11/11/11/2a8/11/11/11/11/11").getOr emptyBoard).apply
        { fromPos := Position.from_indices 2 5,
          toPos := Position.from_indices 2 2 }).getD emptyBoard)
    (Piece.normal Player.black) Player.white Direction.left 2 5 2 2
    (by decide) (by decide) (by decide) (by decide) (by decide)
    (by decide) (by decide) (by decide) (by decide) (by decide)).mpr
    ⟨Piece.normal Player.black, by decide, rfl⟩

/-! ### Claim C9 (amended) -/

theorem takeLetterAK_bounds (cs rest : List Char) (ch : Char)
    (h : takeLetterAK cs = some (ch, rest)) : 'a' ≤ ch ∧ ch ≤ 'k' := by
  cases cs with
  | nil => exact absurd h (by simp [takeLetterAK])
  | cons c rest' =>
    unfold takeLetterAK at h
    simp only [] at h
    by_cases hc : 'a' ≤ c ∧ c ≤ 'k'
    · rw [if_pos hc] at h
      obtain ⟨rfl, rfl⟩ : c = ch ∧ rest' = rest := by
        constructor <;> injection h with h1 <;> injection h1
      exact hc
    · rw [if_neg hc] at h
      exact absurd h (by simp)

theorem char_digit_bounds (c : Char) (h : c.isDigit = true) :
    48 ≤ c.toNat ∧ c.toNat ≤ 57 := by
  unfold Char.isDigit at h
  simp [Bool.and_eq_true] at h
  exact h

theorem takeNum12_le (cs rest : List Char) (n : Nat)
    (h : takeNum12 cs = some (n, rest)) : n ≤ 99 := by
  cases cs with
  | nil => exact absurd h (by simp [takeNum12])
  | cons c1 rest1 =>
    unfold takeNum12 at h
    simp only [] at h
    by_cases h1 : c1.isDigit = true
    · obtain ⟨hd1, hd2⟩ := char_digit_bounds c1 h1
      rw [if_pos h1] at h
      cases rest1 with
      | nil =>
        obtain rfl : c1.toNat - 48 = n := by injection h with h'; injection h'
        omega
      | cons c2 rest2 =>
        simp only [] at h
        by_cases h2 : c2.isDigit = true
        · obtain ⟨he1, he2⟩ := char_digit_bounds c2 h2
          rw [if_pos h2] at h
          obtain rfl : (c1.toNat - 48) * 10 + (c2.toNat - 48) = n := by
            injection h with h'; injection h'
          omega
        · rw [if_neg h2] at h
          obtain rfl : c1.toNat - 48 = n := by injection h with h'; injection h'
          omega
    · rw [if_neg h1] at h
      exact absurd h (by simp)

/-- C9 (amended): move decoding guarantees columns in `a`–`k` but rows only
in 0–99 (one or two digits); decoded positions are therefore in range — the
zero-based indices both in [0, 11) — exactly when the row is additionally in
1–11 (cf. the counterexample `"a0a1"` for a row outside that range). -/
theorem c9_decoded_position_bounds (s : String) (mv : Move)
    (h : Move.from_hnfen s = DecodeResult.ok mv) :
    ('a' ≤ mv.fromPos.column ∧ mv.fromPos.column ≤ 'k') ∧ mv.fromPos.rank ≤ 99 ∧
    ('a' ≤ mv.toPos.column ∧ mv.toPos.column ≤ 'k') ∧ mv.toPos.rank ≤ 99 ∧
    (1 ≤ mv.fromPos.rank → mv.fromPos.rank ≤ 11 →
      mv.fromPos.to_indices.1 < 11 ∧ mv.fromPos.to_indices.2 < 11) ∧
    (1 ≤ mv.toPos.rank → mv.toPos.rank ≤ 11 →
      mv.toPos.to_indices.1 < 11 ∧ mv.toPos.to_indices.2 < 11) := by
  unfold Move.from_hnfen at h
  cases hp : parseMovePattern s.toList with
  | none =>
    rw [hp] at h
    exact absurd h (by simp)
  | some tup =>
    obtain ⟨c1, n1, c2, n2⟩ := tup
    rw [hp] at h
    simp only [] at h
    obtain rfl :
        ({ fromPos := { column := c1, rank := n1 },
           toPos := { column := c2, rank := n2 } } : Move) = mv := by
      injection h
    unfold parseMovePattern at hp
    cases ht1 : takeLetterAK s.toList with
    | none => rw [ht1] at hp; exact absurd hp (by simp)
    | some pr1 =>
      obtain ⟨ch1, r1⟩ := pr1
      rw [ht1] at hp
      simp only [] at hp
      cases ht2 : takeNum12 r1 with
      | none => rw [ht2] at hp; exact absurd hp (by simp)
      | some pr2 =>
        obtain ⟨m1, r2⟩ := pr2
        rw [ht2] at hp
        simp only [] at hp
        cases ht3 : takeLetterAK r2 with
        | none => rw [ht3] at hp; exact absurd hp (by simp)
        | some pr3 =>
          obtain ⟨ch2, r3⟩ := pr3
          rw [ht3] at hp
          simp only [] at hp
          cases ht4 : takeNum12 r3 with
          | none => rw [ht4] at hp; exact absurd hp (by simp)
          | some pr4 =>
            obtain ⟨m2, r4⟩ := pr4
            rw [ht4] at hp
            simp only [] at hp
            by_cases hr4 : r4 = []
            · rw [if_pos hr4] at hp
              obtain ⟨rfl, rfl, rfl, rfl⟩ :
                  ch1 = c1 ∧ m1 = n1 ∧ ch2 = c2 ∧ m2 = n2 := by
                refine ⟨?_, ?_, ?_, ?_⟩ <;> injection hp with hp' <;>
                  simp only [Prod.mk.injEq] at hp' <;> tauto
              have hb1 := takeLetterAK_bounds _ _ _ ht1
              have hb2 := takeNum12_le _ _ _ ht2
              have hb3 := takeLetterAK_bounds _ _ _ ht3
              have hb4 := takeNum12_le _ _ _ ht4
              have hc1 : 97 ≤ ch1.toNat ∧ ch1.toNat ≤ 107 := by
                obtain ⟨ha, hb⟩ := hb1
                simp [Char.le_def] at ha hb
                exact ⟨ha, hb⟩
              have hc2 : 97 ≤ ch2.toNat ∧ ch2.toNat ≤ 107 := by
                obtain ⟨ha, hb⟩ := hb3
                simp [Char.le_def] at ha hb
                exact ⟨ha, hb⟩
              refine ⟨hb1, hb2, hb3, hb4, ?_, ?_⟩ <;>
                · intro hlo hhi
                  dsimp only at hlo hhi ⊢
                  unfold Position.to_indices
                  dsimp only
                  exact ⟨by omega, by omega⟩
            · rw [if_neg hr4] at hp
              exact absurd hp (by simp)

/-- Witness for the amended C9 at the decoded move `"a11k1"`. -/
theorem c9_witness :
    ('a' ≤ ({ column := 'a', rank := 11 } : Position).column ∧
      ({ column := 'a', rank := 11 } : Position).column ≤ 'k') ∧
    ({ column := 'a', rank := 11 } : Position).rank ≤ 99 ∧
    ('a' ≤ ({ column := 'k', rank := 1 } : Position).column ∧
      ({ column := 'k', rank := 1 } : Position).column ≤ 'k') ∧
    ({ column := 'k', rank := 1 } : Position).rank ≤ 99 ∧
    (1 ≤ ({ column := 'a', rank := 11 } : Position).rank →
      ({ column := 'a', rank := 11 } : Position).rank ≤ 11 →
      ({ column := 'a', rank := 11 } : Position).to_indices.1 < 11 ∧
      ({ column := 'a', rank := 11 } : Position).to_indices.2 < 11) ∧
    (1 ≤ ({ column := 'k', rank := 1 } : Position).rank →
      ({ column := 'k', rank := 1 } : Position).rank ≤ 11 →
      ({ column := 'k', rank := 1 } : Position).to_indices.1 < 11 ∧
      ({ column := 'k', rank := 1 } : Position).to_indices.2 < 11) :=
  c9_decoded_position_bounds "a11k1"
    { fromPos := { column := 'a', rank := 11 }, toPos := { column := 'k', rank := 1 } }
    (by decide)

/-- Witness for C10: the default board holds one king, and applying a
concrete move preserves the at-most-one-king property. -/
theorem c10_witness :
    atMostOneKing
      ((((Board.from_hnfen DEFAULT_START_HNFEN).getOr emptyBoard).apply
        { fromPos := Position.from_indices 3 0,
          toPos := Position.from_indices 3 2 }).getD emptyBoard) :=
  c10_at_most_one_king_preserved
    ((Board.from_hnfen DEFAULT_START_HNFEN).getOr emptyBoard)
    { fromPos := Position.from_indices 3 0, toPos := Position.from_indices 3 2 }
    _ (by decide) (by decide)

/-! ### Claim C5 (amended): rank round trip -/

/-- One-step equation of the lexing loop. -/
theorem lexRun_cons (c : Char) (cs : List Char) (acc : List CGroup) :
    lexRun (c :: cs) acc =
      if c.isDigit then
        match acc with
        | CGroup.number n :: tail => lexRun cs (CGroup.number (n * 10 + (c.toNat - 48)) :: tail)
        | _ => lexRun cs (CGroup.number (c.toNat - 48) :: acc)
      else
        match Piece.from_hnfenChar c with
        | some p => lexRun cs (CGroup.character p :: acc)
        | none => none := rfl

theorem lexRun_append (xs ys : List Char) (acc : List CGroup) :
    lexRun (xs ++ ys) acc =
      match lexRun xs acc with
      | some acc' => lexRun ys acc'
      | none => none := by
  induction xs generalizing acc with
  | nil => rfl
  | cons c rest ih =>
    rw [show (c :: rest) ++ ys = c :: (rest ++ ys) from rfl]
    rw [lexRun_cons c (rest ++ ys), lexRun_cons c rest]
    by_cases hc : c.isDigit = true
    · rw [if_pos hc, if_pos hc]
      cases acc with
      | nil =>
        dsimp only
        exact ih [CGroup.number (c.toNat - 48)]
      | cons g tail =>
        cases g with
        | number n =>
          dsimp only
          exact ih (CGroup.number (n * 10 + (c.toNat - 48)) :: tail)
        | character p =>
          dsimp only
          exact ih (CGroup.number (c.toNat - 48) :: CGroup.character p :: tail)
    · rw [if_neg hc, if_neg hc]
      cases hpc : Piece.from_hnfenChar c with
      | some p =>
        dsimp only
        exact ih (CGroup.character p :: acc)
      | none => rfl

theorem lexRun_digits (k : Nat) (acc : List CGroup) (h1 : 1 ≤ k) (h2 : k ≤ 11)
    (hacc : headNotNum acc) :
    lexRun (Nat.toDigits 10 k) acc = some (CGroup.number k :: acc) := by
  interval_cases k <;> rcases acc with _ | ⟨_ | _, tail⟩
  all_goals first
    | rfl
    | simp [headNotNum] at hacc

theorem lexRun_piece (p : Piece) (cs : List Char) (acc : List CGroup) :
    lexRun (pieceChar p :: cs) acc = lexRun cs (CGroup.character p :: acc) := by
  cases p with
  | normal c => cases c <;> rfl
  | king => rfl

theorem lexRun_encChars (l : List (Option Piece)) (ep : Nat) (acc : List CGroup)
    (hep : ep + l.length ≤ 11) (hacc : headNotNum acc) :
    lexRun (encChars l ep) acc = some ((groupsOf l ep).reverse ++ acc) := by
  induction l generalizing ep acc with
  | nil =>
    unfold encChars groupsOf
    by_cases hp : ep > 0
    · rw [if_pos hp, if_pos hp]
      rw [lexRun_digits ep acc hp (by simpa using hep) hacc]
      simp
    · rw [if_neg hp, if_neg hp]
      simp [lexRun]
  | cons cell rest ih =>
    cases cell with
    | none =>
      show lexRun (encChars rest (ep + 1)) acc = some ((groupsOf rest (ep + 1)).reverse ++ acc)
      exact ih (ep + 1) acc (by simp at hep ⊢; omega) hacc
    | some p =>
      unfold encChars groupsOf
      rw [lexRun_append]
      by_cases hp : ep > 0
      · rw [if_pos hp, if_pos hp]
        rw [lexRun_digits ep acc hp (by simp at hep; omega) hacc]
        dsimp only
        rw [lexRun_piece]
        rw [ih 0 _ (by simp at hep ⊢; omega) (by simp [headNotNum])]
        simp
      · rw [if_neg hp, if_neg hp]
        simp only [List.nil_append]
        rw [show lexRun ([] : List Char) acc = some acc from rfl]
        dsimp only
        rw [lexRun_piece]
        rw [ih 0 _ (by simp at hep ⊢; omega) (by simp [headNotNum])]
        simp

theorem placeGroups_groupsOf (l : List (Option Piece)) (ep : Nat)
    (f : List (Option Piece)) (ci : Nat) (h : ci + ep + l.length = 11) :
    placeGroups (groupsOf l ep) f ci =
      DecodeResult.ok { fields := writeSparse f (ci + ep) l } := by
  induction l generalizing ep f ci with
  | nil =>
    unfold groupsOf writeSparse
    by_cases hp : ep > 0
    · rw [if_pos hp]
      unfold placeGroups
      unfold placeGroups
      rw [if_pos (by simp at h; omega)]
    · rw [if_neg hp]
      unfold placeGroups
      rw [if_pos (by simp at h; omega)]
  | cons cell rest ih =>
    cases cell with
    | none =>
      show placeGroups (groupsOf rest (ep + 1)) f ci = _
      rw [ih (ep + 1) f ci (by simp at h ⊢; omega)]
      rw [show ci + (ep + 1) = ci + ep + 1 from by omega]
      rfl
    | some p =>
      unfold groupsOf
      by_cases hp : ep > 0
      · rw [if_pos hp]
        show placeGroups (CGroup.number ep :: CGroup.character p :: groupsOf rest 0) f ci = _
        unfold placeGroups
        unfold placeGroups
        rw [if_pos (show ci + ep < 11 by simp at h; omega)]
        rw [ih 0 _ (ci + ep + 1) (by simp at h ⊢; omega)]
        rw [show ci + ep + 1 + 0 = ci + ep + 1 from by omega]
        rfl
      · rw [if_neg hp]
        have hep0 : ep = 0 := by omega
        subst hep0
        show placeGroups (CGroup.character p :: groupsOf rest 0) f ci = _
        unfold placeGroups
        rw [if_pos (show ci < 11 by simp at h; omega)]
        rw [ih 0 _ (ci + 1) (by simp at h ⊢; omega)]
        rw [show ci + 1 + 0 = ci + 0 + 1 from by omega]
        rfl

theorem writeSparse_getElem (l : List (Option Piece)) (f : List (Option Piece)) (i j : Nat)
    (hlen : i + l.length ≤ f.length) :
    (writeSparse f i l)[j]? =
      match (if i ≤ j then l[j - i]? else none) with
      | some (some p) => some (some p)
      | _ => f[j]? := by
  induction l generalizing f i with
  | nil =>
    unfold writeSparse
    by_cases hij : i ≤ j <;> simp [hij]
  | cons cell rest ih =>
    cases cell with
    | none =>
      show (writeSparse f (i + 1) rest)[j]? = _
      rw [ih f (i + 1) (by simp at hlen ⊢; omega)]
      by_cases h1 : i ≤ j
      · by_cases h2 : i = j
        · subst h2
          simp [Nat.lt_irrefl]
        · have h3 : i + 1 ≤ j := by omega
          have h4 : j - i = (j - (i + 1)) + 1 := by omega
          simp [h1, h3, h4]
      · have h3 : ¬(i + 1 ≤ j) := by omega
        simp [h1, h3]
    | some p =>
      show (writeSparse (f.set i (some p)) (i + 1) rest)[j]? = _
      rw [ih (f.set i (some p)) (i + 1) (by simp at hlen ⊢; omega)]
      by_cases h1 : i ≤ j
      · by_cases h2 : i = j
        · subst h2
          have hfl : i < f.length := by simp at hlen; omega
          simp [Nat.lt_irrefl, List.getElem?_set, hfl]
        · have h3 : i + 1 ≤ j := by omega
          have h4 : j - i = (j - (i + 1)) + 1 := by omega
          have h5 : (f.set i (some p))[j]? = f[j]? :=
            List.getElem?_set_ne (by omega)
          simp [h1, h3, h4, h5]
      · have h3 : ¬(i + 1 ≤ j) := by omega
        have h5 : (f.set i (some p))[j]? = f[j]? :=
          List.getElem?_set_ne (by omega)
        simp [h1, h3, h5]

theorem writeSparse_replicate (l : List (Option Piece)) (h : l.length = 11) :
    writeSparse (List.replicate 11 none) 0 l = l := by
  apply List.ext_getElem?
  intro j
  rw [writeSparse_getElem l _ 0 j (by simp [h])]
  simp only [Nat.zero_le, if_pos, Nat.sub_zero, Nat.zero_add]
  cases hj : l[j]? with
  | none =>
    have hj' : 11 ≤ j := by
      by_contra hlt
      rw [List.getElem?_eq_none_iff] at hj
      omega
    simp [List.getElem?_replicate, Nat.lt_of_lt_of_le, hj]
    omega
  | some cell =>
    have hj' : j < 11 := by
      have := (List.getElem?_eq_some.mp hj).1
      omega
    cases cell with
    | none =>
      dsimp only
      rw [List.getElem?_replicate, if_pos hj']
    | some p => rfl

/-- Decode-of-encode is the identity on rank values. -/
theorem rank_roundtrip (r : Rank) (h : r.fields.length = 11) :
    Rank.from_hnfen (Rank.as_hnfen r) = DecodeResult.ok r := by
  unfold Rank.as_hnfen Rank.from_hnfen rankDecode
  rw [show (String.mk (encChars r.fields 0)).toList = encChars r.fields 0 from rfl]
  rw [lexRun_encChars r.fields 0 [] (by omega) (by simp [headNotNum])]
  simp only [List.append_nil, List.reverse_reverse]
  rw [placeGroups_groupsOf r.fields 0 (List.replicate 11 none) 0 (by omega)]
  rw [show (0 : Nat) + 0 = 0 from rfl]
  rw [writeSparse_replicate r.fields h]

/-! ### Claim C5 (amended): board round trip -/

/-- Decode-of-encode at the character-list level for ranks. -/
theorem rankDecode_encChars (fields : List (Option Piece)) (h : fields.length = 11) :
    rankDecode (encChars fields 0) = DecodeResult.ok { fields := fields } := by
  unfold rankDecode
  rw [lexRun_encChars fields 0 [] (by omega) (by simp [headNotNum])]
  simp only [List.append_nil, List.reverse_reverse]
  rw [placeGroups_groupsOf fields 0 (List.replicate 11 none) 0 (by omega)]
  rw [show (0 : Nat) + 0 = 0 from rfl]
  rw [writeSparse_replicate fields h]

theorem toDigits_isDigit :
    ∀ k, 1 ≤ k → k ≤ 11 → ∀ c ∈ Nat.toDigits 10 k, c.isDigit = true := by
  intro k h1 h2
  interval_cases k <;> decide

theorem toDigits_ne_nil : ∀ k, 1 ≤ k → k ≤ 11 → Nat.toDigits 10 k ≠ [] := by
  intro k h1 h2
  interval_cases k <;> decide

/-- Every character the rank encoder emits is a digit or a piece token. -/
theorem encChars_charset (l : List (Option Piece)) (ep : Nat) (hep : ep + l.length ≤ 11) :
    ∀ c ∈ encChars l ep, c.isDigit = true ∨ c = 'a' ∨ c = 'h' ∨ c = 'K' := by
  induction l generalizing ep with
  | nil =>
    unfold encChars
    by_cases hp : ep > 0
    · rw [if_pos hp]
      intro c hc
      exact Or.inl (toDigits_isDigit ep hp (by simpa using hep) c hc)
    · rw [if_neg hp]
      intro c hc
      exact absurd hc (by simp)
  | cons cell rest ih =>
    cases cell with
    | none =>
      intro c hc
      exact ih (ep + 1) (by simp at hep ⊢; omega) c hc
    | some p =>
      intro c hc
      unfold encChars at hc
      rw [List.mem_append] at hc
      rcases hc with hc | hc
      · by_cases hp : ep > 0
        · rw [if_pos hp] at hc
          exact Or.inl (toDigits_isDigit ep hp (by simp at hep; omega) c hc)
        · rw [if_neg hp] at hc
          exact absurd hc (by simp)
      · rcases List.mem_cons.mp hc with rfl | hc
        · cases p with
          | normal pc => cases pc <;> simp [pieceChar]
          | king => simp [pieceChar]
        · exact ih 0 (by simp at hep ⊢; omega) c hc

/-- The rank encoder emits at least one character for a nonempty rank. -/
theorem encChars_ne_nil (l : List (Option Piece)) (ep : Nat)
    (hlen : 0 < ep + l.length) (hub : ep + l.length ≤ 11) :
    encChars l ep ≠ [] := by
  induction l generalizing ep with
  | nil =>
    unfold encChars
    have hp : ep > 0 := by simpa using hlen
    rw [if_pos hp]
    exact toDigits_ne_nil ep hp (by simpa using hub)
  | cons cell rest ih =>
    cases cell with
    | none =>
      show encChars rest (ep + 1) ≠ []
      exact ih (ep + 1) (by omega) (by simp at hub ⊢; omega)
    | some p =>
      unfold encChars
      simp

/-- Characters of a joined list come from the separator or from a part. -/
theorem mem_joinSep (sep : Char) (parts : List (List Char)) (c : Char)
    (h : c ∈ joinSep sep parts) : c = sep ∨ ∃ p ∈ parts, c ∈ p := by
  induction parts with
  | nil => exact absurd h (by simp [joinSep])
  | cons x xs ih =>
    cases xs with
    | nil =>
      refine Or.inr ⟨x, by simp, ?_⟩
      simpa [joinSep] using h
    | cons y rest =>
      unfold joinSep at h
      rw [List.mem_append] at h
      rcases h with h | h
      · exact Or.inr ⟨x, by simp, h⟩
      · rcases List.mem_cons.mp h with rfl | h
        · exact Or.inl rfl
        · rcases ih h with h | ⟨p, hp, hcp⟩
          · exact Or.inl h
          · exact Or.inr ⟨p, List.mem_cons_of_mem _ hp, hcp⟩

theorem joinSep_ne_nil (sep : Char) (x : List Char) (xs : List (List Char))
    (hx : x ≠ []) : joinSep sep (x :: xs) ≠ [] := by
  cases xs with
  | nil => simpa [joinSep] using hx
  | cons y rest =>
    unfold joinSep
    simp [hx]

/-- One-step equation of the whitespace splitter. -/
theorem splitWsAux_cons (c : Char) (cs cur : List Char) :
    splitWsAux (c :: cs) cur =
      if isWs c then
        (if cur = [] then splitWsAux cs [] else cur.reverse :: splitWsAux cs [])
      else splitWsAux cs (c :: cur) := rfl

theorem splitWsAux_no_ws (xs rest cur : List Char) (h : ∀ c ∈ xs, isWs c = false) :
    splitWsAux (xs ++ rest) cur = splitWsAux rest (xs.reverse ++ cur) := by
  induction xs generalizing cur with
  | nil => simp
  | cons c xs' ih =>
    rw [show (c :: xs') ++ rest = c :: (xs' ++ rest) from rfl]
    rw [splitWsAux_cons, if_neg (by simp [h c (by simp)])]
    rw [ih (c :: cur) fun e he => h e (List.mem_cons_of_mem _ he)]
    simp

/-- A whitespace-free tail flushes into the pending token. -/
theorem splitWsAux_flush (ys cur : List Char) (hy : ∀ c ∈ ys, isWs c = false)
    (hcur : cur ≠ []) : splitWsAux ys cur = [cur.reverse ++ ys] := by
  induction ys generalizing cur with
  | nil =>
    unfold splitWsAux
    rw [if_neg hcur]
    simp
  | cons c ys' ih =>
    rw [splitWsAux_cons, if_neg (by simp [hy c (by simp)])]
    rw [ih (c :: cur) (fun e he => hy e (List.mem_cons_of_mem _ he)) (by simp)]
    simp

/-- Splitting a text of exactly two whitespace-free tokens around a space. -/
theorem splitWs_two (xs ys : List Char) (hxs : xs ≠ []) (hys : ys ≠ [])
    (hx : ∀ c ∈ xs, isWs c = false) (hy : ∀ c ∈ ys, isWs c = false) :
    splitWs (xs ++ ' ' :: ys) = [xs, ys] := by
  unfold splitWs
  rw [splitWsAux_no_ws xs (' ' :: ys) [] hx]
  rw [splitWsAux_cons, if_pos (by decide)]
  rw [if_neg (by simpa using hxs)]
  rcases ys with _ | ⟨y, ys'⟩
  · exact absurd rfl hys
  · rw [splitWsAux_cons, if_neg (by simp [hy y (by simp)])]
    rw [splitWsAux_flush ys' [y] (fun e he => hy e (List.mem_cons_of_mem _ he)) (by simp)]
    simp

/-- One-step equation of the separator splitter. -/
theorem splitOnCharAux_cons (sep c : Char) (cs cur : List Char) :
    splitOnCharAux sep (c :: cs) cur =
      if c = sep then cur.reverse :: splitOnCharAux sep cs []
      else splitOnCharAux sep cs (c :: cur) := rfl

theorem splitOnCharAux_no_sep (sep : Char) (xs rest cur : List Char)
    (h : ∀ c ∈ xs, c ≠ sep) :
    splitOnCharAux sep (xs ++ rest) cur = splitOnCharAux sep rest (xs.reverse ++ cur) := by
  induction xs generalizing cur with
  | nil => simp
  | cons c xs' ih =>
    rw [show (c :: xs') ++ rest = c :: (xs' ++ rest) from rfl]
    rw [splitOnCharAux_cons, if_neg (h c (by simp))]
    rw [ih (c :: cur) fun e he => h e (List.mem_cons_of_mem _ he)]
    simp

/-- Splitting a separator-joined list of separator-free parts recovers the
parts. -/
theorem splitOnChar_joinSep (sep : Char) (parts : List (List Char))
    (hne : parts ≠ []) (hall : ∀ p ∈ parts, ∀ c ∈ p, c ≠ sep) :
    splitOnChar sep (joinSep sep parts) = parts := by
  induction parts with
  | nil => exact absurd rfl hne
  | cons x xs ih =>
    cases xs with
    | nil =>
      show splitOnChar sep (joinSep sep [x]) = [x]
      unfold joinSep splitOnChar
      rw [show x = x ++ [] from by simp]
      rw [splitOnCharAux_no_sep sep x [] [] (hall x (by simp))]
      simp [splitOnCharAux]
    | cons y rest =>
      show splitOnChar sep (x ++ sep :: joinSep sep (y :: rest)) = x :: y :: rest
      unfold splitOnChar
      rw [splitOnCharAux_no_sep sep x _ [] (hall x (by simp))]
      rw [splitOnCharAux_cons, if_pos rfl]
      have ihr : splitOnChar sep (joinSep sep (y :: rest)) = y :: rest :=
        ih (by simp) fun p hp => hall p (List.mem_cons_of_mem _ hp)
      unfold splitOnChar at ihr
      rw [ihr]
      simp

/-- Decoding a sequence of encoded ranks succeeds rank by rank. -/
theorem collectRanks_map (rs : List Rank) (h : ∀ r ∈ rs, r.fields.length = 11) :
    collectRanks (rs.map fun r => encChars r.fields 0) = DecodeResult.ok rs := by
  induction rs with
  | nil => rfl
  | cons r rest ih =>
    show collectRanks (encChars r.fields 0 :: rest.map fun r => encChars r.fields 0) = _
    unfold collectRanks
    rw [rankDecode_encChars r.fields (h r (by simp))]
    rw [ih fun e he => h e (List.mem_cons_of_mem _ he)]

/-- A character the rank encoder emits is neither whitespace nor `'/'`. -/
theorem encChar_not_ws_not_sep (c : Char)
    (h : c.isDigit = true ∨ c = 'a' ∨ c = 'h' ∨ c = 'K') :
    isWs c = false ∧ c ≠ '/' := by
  rcases h with h | rfl | rfl | rfl
  · obtain ⟨h1, h2⟩ := char_digit_bounds c h
    constructor
    · unfold isWs
      have hs : c ≠ ' ' := fun hEq => by rw [hEq] at h1; exact absurd h1 (by decide)
      have ht : c ≠ '\t' := fun hEq => by rw [hEq] at h1; exact absurd h1 (by decide)
      have hn : c ≠ '\n' := fun hEq => by rw [hEq] at h1; exact absurd h1 (by decide)
      have hr : c ≠ '\r' := fun hEq => by rw [hEq] at h1; exact absurd h1 (by decide)
      simp [hs, ht, hn, hr]
    · intro hEq
      rw [hEq] at h1
      exact absurd h1 (by decide)
  · decide
  · decide
  · decide

/-- Decode-of-encode is the identity on board values. -/
theorem board_roundtrip (b : Board) (hlen : b.ranks.length = 11)
    (hall : ∀ r ∈ b.ranks, r.fields.length = 11) :
    Board.from_hnfen (Board.as_hnfen b) = DecodeResult.ok b := by
  obtain ⟨branks, bnext⟩ := b
  rcases branks with _ | ⟨r0, rrest⟩
  · simp at hlen
  · have hcharset : ∀ p ∈ ((r0 :: rrest).map fun r => encChars r.fields 0), ∀ c ∈ p,
        c.isDigit = true ∨ c = 'a' ∨ c = 'h' ∨ c = 'K' := by
      intro p hp c hc
      rcases List.mem_map.mp hp with ⟨r, hr, rfl⟩
      exact encChars_charset r.fields 0 (by simp [hall r hr]) c hc
    have hr0len : r0.fields.length = 11 := hall r0 (by simp)
    have hjne : joinSep '/' ((r0 :: rrest).map fun r => encChars r.fields 0) ≠ [] := by
      simp only [List.map_cons]
      exact joinSep_ne_nil '/' _ _ (encChars_ne_nil r0.fields 0 (by omega) (by omega))
    have hjnws : ∀ c ∈ joinSep '/' ((r0 :: rrest).map fun r => encChars r.fields 0),
        isWs c = false := by
      intro c hc
      rcases mem_joinSep '/' _ c hc with rfl | ⟨p, hp, hcp⟩
      · decide
      · exact (encChar_not_ws_not_sep c (hcharset p hp c hcp)).1
    unfold Board.as_hnfen Board.from_hnfen
    simp only [String.toList]
    rw [splitWs_two _ [playerChar bnext] hjne (by simp) hjnws
      (by cases bnext <;> simp [playerChar, isWs])]
    simp only []
    rw [splitOnChar_joinSep '/' _ (by simp)
      (fun p hp c hc => (encChar_not_ws_not_sep c (hcharset p hp c hc)).2)]
    rw [collectRanks_map (r0 :: rrest) hall]
    simp only []
    rw [if_pos hlen]
    simp only [List.head?]
    cases bnext <;> rfl

/-- C5 (amended): decode-then-encode yields the canonical text rather than
the original — leading-zero digit runs collapse and an omitted side token is
re-emitted as `" a"` (cf. the counterexample) — and decode-then-encode is
the identity exactly on canonical texts: decoding the encoding of any rank
value or board value returns that value, so every decoded value re-encodes
to a text that decodes to the same value. -/
theorem c5_decode_encode_identity_on_values (r : Rank) (b : Board)
    (hr : r.fields.length = 11) (hlen : b.ranks.length = 11)
    (hall : ∀ rk ∈ b.ranks, rk.fields.length = 11) :
    Rank.from_hnfen (Rank.as_hnfen r) = DecodeResult.ok r ∧
    Board.from_hnfen (Board.as_hnfen b) = DecodeResult.ok b :=
  ⟨rank_roundtrip r hr, board_roundtrip b hlen hall⟩

/-- Witness for the amended C5 on the decoded default board and its first
rank. -/
theorem c5_witness :
    Rank.from_hnfen (Rank.as_hnfen { fields := List.replicate 11 none }) =
      DecodeResult.ok { fields := List.replicate 11 none } ∧
    Board.from_hnfen
        (Board.as_hnfen ((Board.from_hnfen DEFAULT_START_HNFEN).getOr emptyBoard)) =
      DecodeResult.ok ((Board.from_hnfen DEFAULT_START_HNFEN).getOr emptyBoard) :=
  c5_decode_encode_identity_on_values
    { fields := List.replicate 11 none }
    ((Board.from_hnfen DEFAULT_START_HNFEN).getOr emptyBoard)
    (by decide) (by decide) (by decide)

end Hnfen

